import Mathlib

/-!
Verification of the Min-Conflicts N-Queens local search
(`src/models/nqueens_local_search.py`).

The board is a permutation `board : List Nat` with `board[row] = col`,
together with two frequency counter arrays `diag_conflicts` and
`antidiag_conflicts` of length `2n - 1`.  The solver
`solve_min_conflicts` runs a restart loop of iteration loops, each
iteration picking a most-conflicted queen and swapping it with the
probe-score-minimizing partner row.

The process-global random sources of the Python code
(`np.random.permutation` in the constructor, `random.choice` at the two
tie-break sites) are modelled by explicit parameters: `permSrc r` is the
permutation drawn at restart `r`, and `picks` is the stream of numbers
consumed by `chooseFrom` (one per `random.choice` call); `chooseFrom`
reduces a pick modulo the candidate-list length, so quantifying over
`picks` covers every possible sequence of random choices.
-/

set_option maxHeartbeats 1000000

namespace NQueens

/-- State of `MinConflictsBoard`: size `n`, the permutation board
(`board[row] = col`), and the two counter arrays `diag_conflicts` and
`antidiag_conflicts` (length `2n - 1`). -/
structure MCBoard where
  n : Nat
  board : List Nat
  diag : List Int
  antidiag : List Int
deriving Repr, DecidableEq

/-- Diagonal index `row - col + n - 1` of the source, written in ℕ as
`row + (n - 1) - col`; the two agree whenever `col ≤ row + n - 1`, in
particular whenever `col < n`. -/
def diagIdx (n row col : Nat) : Nat := row + (n - 1) - col

/-- Anti-diagonal index `row + col`. -/
def antiIdx (row col : Nat) : Nat := row + col

/-- Read a counter bucket; 0 outside the array (all accesses the claims
exercise are in range). -/
def getC (l : List Int) (i : Nat) : Int := l.getD i 0

/-- Add `k` to bucket `i` (the source's `+= 1` / `-= 1` on a counter
entry); no-op outside the array. -/
def bump : List Int → Nat → Int → List Int
  | [], _, _ => []
  | x :: xs, 0, k => (x + k) :: xs
  | x :: xs, i + 1, k => x :: bump xs i k

/-- One row of the counter-initialization pass of
`MinConflictsBoard.__init__`. -/
def initStep (n : Nat) (perm : List Nat) (s : MCBoard) (row : Nat) : MCBoard :=
  let col := perm.getD row 0
  { s with diag := bump s.diag (diagIdx n row col) 1,
           antidiag := bump s.antidiag (antiIdx row col) 1 }

/-- Model of `MinConflictsBoard.__init__`: store the supplied permutation and
build both frequency arrays by one pass over the rows. -/
def initBoard (n : Nat) (perm : List Nat) : MCBoard :=
  (List.range n).foldl (initStep n perm)
    ⟨n, perm, List.replicate (2 * n - 1) 0, List.replicate (2 * n - 1) 0⟩

/-- Model of `MinConflictsBoard.conflicts_at`:
`max(0, diag[row-col+n-1] + antidiag[row+col] - 2)`. -/
def conflictsAt (s : MCBoard) (row col : Nat) : Int :=
  max 0 (getC s.diag (diagIdx s.n row col) + getC s.antidiag (antiIdx row col) - 2)

/-- One step of the `total_conflicts` accumulation:
`if count > 1: total += count * (count - 1) // 2`. -/
def pairStep (acc c : Int) : Int := if c > 1 then acc + c * (c - 1) / 2 else acc

/-- Model of `MinConflictsBoard.total_conflicts`: fold `pairStep` over the diag
array and then over the antidiag array. -/
def totalConflicts (s : MCBoard) : Int :=
  s.antidiag.foldl pairStep (s.diag.foldl pairStep 0)

/-- Model of `MinConflictsBoard.swap_queens`: no-op when `row1 == row2`; otherwise
remove both queens from their buckets, exchange the two board entries,
and re-insert both queens into the buckets of their new positions. -/
def swapQueens (s : MCBoard) (row1 row2 : Nat) : MCBoard :=
  if row1 = row2 then s else
    let col1 := s.board.getD row1 0
    let col2 := s.board.getD row2 0
    let d1 := bump (bump s.diag (diagIdx s.n row1 col1) (-1)) (diagIdx s.n row2 col2) (-1)
    let a1 := bump (bump s.antidiag (antiIdx row1 col1) (-1)) (antiIdx row2 col2) (-1)
    { s with
      board := (s.board.set row1 col2).set row2 col1,
      diag := bump (bump d1 (diagIdx s.n row1 col2) 1) (diagIdx s.n row2 col1) 1,
      antidiag := bump (bump a1 (antiIdx row1 col2) 1) (antiIdx row2 col1) 1 }

/-- The test of the naive scan: queens in rows `i` and `j` attack
diagonally iff `abs(board[i] - board[j]) == abs(i - j)`. -/
def attackP (board : List Nat) (i j : Nat) : Prop :=
  ((board.getD i 0 : Int) - (board.getD j 0 : Int)).natAbs
    = ((i : Int) - (j : Int)).natAbs

instance (board : List Nat) (i j : Nat) : Decidable (attackP board i j) := by
  unfold attackP; infer_instance

/-- Model of `count_conflicts`: the naive O(n²) scan counting pairs `i < j` with
`abs(board[i] - board[j]) == abs(i - j)` (`j` runs over
`range(i + 1, n)`). -/
def count_conflicts (board : List Nat) (n : Nat) : Nat :=
  (List.range n).foldl
    (fun conflicts i =>
      (List.range' (i + 1) (n - (i + 1))).foldl
        (fun c j => if attackP board i j then c + 1 else c)
        conflicts)
    0

/-- The probe score `get_best_swap` computes for one candidate row:
swap, read the two moved queens' conflicts, (implicitly) swap back. -/
def probeScore (s : MCBoard) (row other_row : Nat) : Int :=
  let current_col := s.board.getD row 0
  let other_col := s.board.getD other_row 0
  let s1 := swapQueens s row other_row
  conflictsAt s1 row other_col + conflictsAt s1 other_row current_col

/-- One candidate of the min/argmin-list accumulation of
`get_best_swap`: track the least score seen (`none` plays the role of
the initial `float('inf')`) and the list of rows achieving it. -/
def bsStep (score : Nat → Int) (acc : Option Int × List Nat) (other : Nat) :
    Option Int × List Nat :=
  match acc with
  | (none, _) => (some (score other), [other])
  | (some m, best) =>
    if score other < m then (some (score other), [other])
    else if score other = m then (some m, best ++ [other])
    else (some m, best)

/-- The min/argmin-list accumulation of `get_best_swap` over a candidate
list. -/
def minFold (score : Nat → Int) (l : List Nat) : Option Int × List Nat :=
  l.foldl (bsStep score) (none, [])

/-- The `best_swaps` list built by `get_best_swap`'s loop over
`range(n)` (note: the loop includes `other_row == row`). -/
def bestSwapList (s : MCBoard) (row : Nat) : List Nat :=
  (minFold (probeScore s row) (List.range s.n)).2

/-- Model of `random.choice`, driven by the pick stream: index the list by
`picks k` reduced modulo its length. -/
def chooseFrom (picks : Nat → Nat) (k : Nat) (l : List Nat) : Nat :=
  l.getD (picks k % l.length) 0

/-- Model of `get_best_swap`: uniform random choice among `best_swaps`. -/
def get_best_swap (s : MCBoard) (row : Nat) (picks : Nat → Nat) (k : Nat) : Nat :=
  chooseFrom picks k (bestSwapList s row)

/-- The `most_conflicted_queens` accumulation of `solve_min_conflicts`:
starting from `max_conf = 0`, keep the rows whose own conflict count is
maximal (and positive). -/
def mcStep (s : MCBoard) (acc : Int × List Nat) (row : Nat) : Int × List Nat :=
  let conf := conflictsAt s row (s.board.getD row 0)
  if conf > acc.1 then (conf, [row])
  else if conf = acc.1 ∧ conf > 0 then (acc.1, acc.2 ++ [row])
  else acc

def mostConflicted (s : MCBoard) : List Nat :=
  ((List.range s.n).foldl (mcStep s) ((0 : Int), ([] : List Nat))).2

/-- The result tuple of `solve_min_conflicts`:
`(board, iterations, restarts, success)`. -/
structure SolveResult where
  board : Option (List Nat)
  iterations : Nat
  restarts : Nat
  success : Bool
deriving Repr, DecidableEq

/-- The inner `for iteration in range(max_iterations)` loop, structurally
recursive on the remaining fuel (`fuel = max_iterations - iteration`);
`k` is the position in the pick stream.  Returns the success result, or
`none` with the advanced pick position when the budget is exhausted. -/
def iterLoop (picks : Nat → Nat) (maxIt restart : Nat) :
    Nat → MCBoard → Nat → Option SolveResult × Nat
  | 0, _, k => (none, k)
  | fuel + 1, s, k =>
    if totalConflicts s = 0 then
      (some ⟨some s.board, maxIt - fuel, restart + 1, true⟩, k)
    else
      let mcq := mostConflicted s
      if mcq = [] then
        iterLoop picks maxIt restart fuel s k
      else
        let row := chooseFrom picks k mcq
        let other := get_best_swap s row picks (k + 1)
        iterLoop picks maxIt restart fuel (swapQueens s row other) (k + 2)

/-- The outer `for restart in range(max_restarts)` loop; on exhaustion it
returns `(None, max_iterations * max_restarts, max_restarts, False)`. -/
def restartLoop (permSrc : Nat → List Nat) (picks : Nat → Nat) (n maxIt maxRe : Nat) :
    Nat → Nat → SolveResult
  | 0, _ => ⟨none, maxIt * maxRe, maxRe, false⟩
  | fuel + 1, k =>
    let restart := maxRe - (fuel + 1)
    match iterLoop picks maxIt restart maxIt (initBoard n (permSrc restart)) k with
    | (some res, _) => res
    | (none, k') => restartLoop permSrc picks n maxIt maxRe fuel k'

/-- Model of `solve_min_conflicts(n, max_iterations, max_restarts)`, with the two
random sources passed explicitly. -/
def solve_min_conflicts (n maxIt maxRe : Nat) (permSrc : Nat → List Nat)
    (picks : Nat → Nat) : SolveResult :=
  restartLoop permSrc picks n maxIt maxRe maxRe 0

/-- Predicate: `l` is a permutation of `{0, …, n-1}`: length `n` and each value
below `n` occurs exactly once. -/
def isPermutation (n : Nat) (l : List Nat) : Prop :=
  l.length = n ∧ ∀ x < n, l.count x = 1

instance (n : Nat) (l : List Nat) : Decidable (isPermutation n l) := by
  unfold isPermutation; infer_instance

/-- The from-scratch recount of a counter bucket: the number of rows
whose (anti)diagonal index is `d`. -/
def scanCount (n : Nat) (board : List Nat) (f : Nat → Nat → Nat) (d : Nat) : Nat :=
  ((Finset.range n).filter (fun r => f r (board.getD r 0) = d)).card

/-- Both counter arrays have length `2n - 1` and agree bucket-by-bucket
with a from-scratch scan of the board. -/
def countersConsistent (s : MCBoard) : Prop :=
  s.diag.length = 2 * s.n - 1 ∧ s.antidiag.length = 2 * s.n - 1 ∧
  (∀ d < 2 * s.n - 1, getC s.diag d = (scanCount s.n s.board (diagIdx s.n) d : Int)) ∧
  (∀ a < 2 * s.n - 1, getC s.antidiag a = (scanCount s.n s.board antiIdx a : Int))

instance (s : MCBoard) : Decidable (countersConsistent s) := by
  unfold countersConsistent; infer_instance

/-- The full state invariant: the board is a permutation of
`{0, …, n-1}` and the counters are consistent with it. -/
def Inv (s : MCBoard) : Prop :=
  s.board.length = s.n ∧ isPermutation s.n s.board ∧ countersConsistent s

instance (s : MCBoard) : Decidable (Inv s) := by
  unfold Inv; infer_instance

/-- The per-queen conflict formula as the spec words it:
`(diag[row-col+n-1] - 1) + (antidiag[row+col] - 1)`, clamped at 0. -/
def conflictsAtSpec (s : MCBoard) (row col : Nat) : Int :=
  max ((getC s.diag (diagIdx s.n row col) - 1) + (getC s.antidiag (antiIdx row col) - 1)) 0

/-- The candidate list as the spec words it: only partner rows
`r' ≠ row` are evaluated. -/
def bestSwapListSpec (s : MCBoard) (row : Nat) : List Nat :=
  (minFold (probeScore s row) ((List.range s.n).filter (fun r => r ≠ row))).2

/-! ### Basic facts about `bump`, `List.set` and `List.count` -/

lemma bump_length (l : List Int) (i : Nat) (k : Int) : (bump l i k).length = l.length := by
  induction l generalizing i with
  | nil => rfl
  | cons x xs ih =>
    cases i with
    | zero => rfl
    | succ j => simp [bump, ih]

lemma getC_bump (l : List Int) (i j : Nat) (k : Int) :
    getC (bump l i k) j = getC l j + (if i = j ∧ i < l.length then k else 0) := by
  induction l generalizing i j with
  | nil => simp [bump, getC]
  | cons x xs ih =>
    cases i with
    | zero =>
      cases j with
      | zero => simp [bump, getC]
      | succ j' => simp [bump, getC]
    | succ i' =>
      cases j with
      | zero => simp [bump, getC]
      | succ j' =>
        have := ih i' j'
        simp only [bump, getC, List.getD_cons_succ, List.length_cons] at *
        rw [this]
        by_cases h : i' = j' ∧ i' < xs.length
        · rw [if_pos h, if_pos ⟨by omega, by omega⟩]
        · rw [if_neg h, if_neg (by omega)]

lemma getD_set (l : List Nat) (i j v : Nat) :
    (l.set i v).getD j 0 = if i = j ∧ i < l.length then v else l.getD j 0 := by
  induction l generalizing i j with
  | nil => simp
  | cons x xs ih =>
    cases i with
    | zero =>
      cases j with
      | zero => simp
      | succ j' => simp
    | succ i' =>
      cases j with
      | zero => simp
      | succ j' =>
        have := ih i' j'
        simp only [List.set_cons_succ, List.getD_cons_succ, List.length_cons]
        rw [this]
        by_cases h : i' = j' ∧ i' < xs.length
        · rw [if_pos h, if_pos ⟨by omega, by omega⟩]
        · rw [if_neg h, if_neg (by omega)]

lemma count_set_add (l : List Nat) (i : Nat) (hi : i < l.length) (v x : Nat) :
    (l.set i v).count x + (if l.getD i 0 = x then 1 else 0)
      = l.count x + (if v = x then 1 else 0) := by
  induction l generalizing i with
  | nil => simp at hi
  | cons a t ih =>
    cases i with
    | zero =>
      simp only [List.set_cons_zero, List.getD_cons_zero, List.count_cons]
      by_cases hv : v = x <;> by_cases ha : a = x <;>
        simp [hv, ha] <;> omega
    | succ i' =>
      have hi' : i' < t.length := by simpa using hi
      have h := ih i' hi'
      simp only [List.set_cons_succ, List.getD_cons_succ, List.count_cons] at h ⊢
      by_cases ha : a = x <;> simp [ha, List.getD] at h ⊢ <;> omega

/-- Exchanging two entries of a list leaves every value's multiplicity
unchanged. -/
lemma count_exchange (l : List Nat) (r1 r2 : Nat) (h1 : r1 < l.length)
    (h2 : r2 < l.length) (hne : r1 ≠ r2) (x : Nat) :
    ((l.set r1 (l.getD r2 0)).set r2 (l.getD r1 0)).count x = l.count x := by
  have e1 := count_set_add l r1 h1 (l.getD r2 0) x
  have h1' : r2 < (l.set r1 (l.getD r2 0)).length := by simpa using h2
  have e2 := count_set_add (l.set r1 (l.getD r2 0)) r2 h1' (l.getD r1 0) x
  have hg : (l.set r1 (l.getD r2 0)).getD r2 0 = l.getD r2 0 := by
    rw [getD_set]; rw [if_neg (by omega)]
  rw [hg] at e2
  omega

/-! ### Permutation facts -/

lemma isPermutation_mem_lt {n : Nat} {l : List Nat} (h : isPermutation n l) :
    ∀ x ∈ l, x < n := by
  intro x hx
  by_contra hge
  push_neg at hge
  have hsub : insert x (Finset.range n) ⊆ l.toFinset := by
    intro y hy
    rcases Finset.mem_insert.1 hy with rfl | hy
    · exact List.mem_toFinset.2 hx
    · have := h.2 y (Finset.mem_range.1 hy)
      exact List.mem_toFinset.2 (List.count_pos_iff.1 (by omega))
  have hcard : n + 1 ≤ l.toFinset.card := by
    have hle := Finset.card_le_card hsub
    rwa [Finset.card_insert_of_not_mem (by simp [Finset.mem_range]; omega),
      Finset.card_range] at hle
  have hlen : l.toFinset.card ≤ l.length := l.toFinset_card_le
  have := h.1
  omega

lemma isPermutation_getD_lt {n : Nat} {l : List Nat} (h : isPermutation n l)
    {r : Nat} (hr : r < n) : l.getD r 0 < n := by
  have hlen : r < l.length := by rw [h.1]; exact hr
  have hmem : l.getD r 0 ∈ l := by
    rw [List.getD_eq_getElem _ _ hlen]
    exact List.getElem_mem hlen
  exact isPermutation_mem_lt h _ hmem

/-- Exchanging two entries preserves the permutation property. -/
lemma isPermutation_exchange {n : Nat} {l : List Nat} (h : isPermutation n l)
    {r1 r2 : Nat} (h1 : r1 < n) (h2 : r2 < n) (hne : r1 ≠ r2) :
    isPermutation n ((l.set r1 (l.getD r2 0)).set r2 (l.getD r1 0)) := by
  have hl1 : r1 < l.length := by rw [h.1]; exact h1
  have hl2 : r2 < l.length := by rw [h.1]; exact h2
  refine ⟨by simpa using h.1, fun x hx => ?_⟩
  rw [count_exchange l r1 r2 hl1 hl2 hne x]
  exact h.2 x hx

/-! ### `scanCount` facts -/

lemma scanCount_eq_sum (n : Nat) (board : List Nat) (f : Nat → Nat → Nat) (d : Nat) :
    scanCount n board f d
      = ∑ r ∈ Finset.range n, if f r (board.getD r 0) = d then 1 else 0 :=
  Finset.card_filter _ _

lemma sum_split_two (g : Nat → Nat) {n r1 r2 : Nat} (h1 : r1 < n) (h2 : r2 < n)
    (hne : r1 ≠ r2) :
    ∑ r ∈ Finset.range n, g r
      = g r1 + g r2 + ∑ r ∈ ((Finset.range n).erase r1).erase r2, g r := by
  rw [← Finset.add_sum_erase _ g (Finset.mem_range.2 h1),
    ← Finset.add_sum_erase _ g
      (Finset.mem_erase.2 ⟨hne.symm, Finset.mem_range.2 h2⟩)]
  ring

/-- How the from-scratch bucket count reacts to rewriting the two rows a
swap touches. -/
lemma scanCount_exchange (b : List Nat) (v1 v2 : Nat) (f : Nat → Nat → Nat) (d : Nat)
    {n r1 r2 : Nat} (h1 : r1 < n) (h2 : r2 < n) (hne : r1 ≠ r2) (hlen : b.length = n) :
    scanCount n ((b.set r1 v1).set r2 v2) f d
      + (if f r1 (b.getD r1 0) = d then 1 else 0)
      + (if f r2 (b.getD r2 0) = d then 1 else 0)
      = scanCount n b f d
      + (if f r1 v1 = d then 1 else 0)
      + (if f r2 v2 = d then 1 else 0) := by
  have hb' : ∀ r, r ≠ r1 → r ≠ r2 → ((b.set r1 v1).set r2 v2).getD r 0 = b.getD r 0 := by
    intro r hr1 hr2
    rw [getD_set, if_neg (by omega), getD_set, if_neg (by omega)]
  have hgr1 : ((b.set r1 v1).set r2 v2).getD r1 0 = v1 := by
    rw [getD_set, if_neg (by omega), getD_set, if_pos ⟨rfl, by omega⟩]
  have hgr2 : ((b.set r1 v1).set r2 v2).getD r2 0 = v2 := by
    rw [getD_set, if_pos ⟨rfl, by simp [hlen, h2]⟩]
  have hR : ∑ r ∈ ((Finset.range n).erase r1).erase r2,
        (if f r (((b.set r1 v1).set r2 v2).getD r 0) = d then 1 else 0)
      = ∑ r ∈ ((Finset.range n).erase r1).erase r2,
        (if f r (b.getD r 0) = d then 1 else 0) := by
    refine Finset.sum_congr rfl fun r hr => ?_
    have hr2 := (Finset.mem_erase.1 hr).1
    have hr1 := (Finset.mem_erase.1 (Finset.mem_erase.1 hr).2).1
    rw [hb' r hr1 hr2]
  rw [scanCount_eq_sum, scanCount_eq_sum,
    sum_split_two _ h1 h2 hne, sum_split_two _ h1 h2 hne, hgr1, hgr2, hR]
  ring

/-! ### Consistency of `initBoard` -/

lemma initFold_n (n : Nat) (perm : List Nat) (rs : List Nat) (s0 : MCBoard) :
    (rs.foldl (initStep n perm) s0).n = s0.n := by
  induction rs generalizing s0 with
  | nil => rfl
  | cons r rs ih => exact ih _

lemma initFold_board (n : Nat) (perm : List Nat) (rs : List Nat) (s0 : MCBoard) :
    (rs.foldl (initStep n perm) s0).board = s0.board := by
  induction rs generalizing s0 with
  | nil => rfl
  | cons r rs ih => exact ih _

lemma initFold_diag_length (n : Nat) (perm : List Nat) (rs : List Nat) (s0 : MCBoard) :
    (rs.foldl (initStep n perm) s0).diag.length = s0.diag.length := by
  induction rs generalizing s0 with
  | nil => rfl
  | cons r rs ih => rw [List.foldl_cons, ih]; simp [initStep, bump_length]

lemma initFold_antidiag_length (n : Nat) (perm : List Nat) (rs : List Nat) (s0 : MCBoard) :
    (rs.foldl (initStep n perm) s0).antidiag.length = s0.antidiag.length := by
  induction rs generalizing s0 with
  | nil => rfl
  | cons r rs ih => rw [List.foldl_cons, ih]; simp [initStep, bump_length]

lemma initFold_getC_diag (n : Nat) (perm : List Nat) (rs : List Nat) (s0 : MCBoard)
    (d : Nat)
    (hb : ∀ r ∈ rs, diagIdx n r (perm.getD r 0) < s0.diag.length) :
    getC (rs.foldl (initStep n perm) s0).diag d
      = getC s0.diag d
        + ((rs.filter (fun r => diagIdx n r (perm.getD r 0) = d)).length : Int) := by
  induction rs generalizing s0 with
  | nil => simp
  | cons r rs ih =>
    rw [List.foldl_cons,
      ih _ (fun r' hr' => by simpa [initStep, bump_length] using hb r' (List.mem_cons_of_mem _ hr'))]
    have hstep : getC (initStep n perm s0 r).diag d
        = getC s0.diag d + (if diagIdx n r (perm.getD r 0) = d then 1 else 0) := by
      simp only [initStep, getC_bump]
      rcases Nat.decEq (diagIdx n r (perm.getD r 0)) d with h | h
      · rw [if_neg (by tauto), if_neg (by tauto)]
      · rw [if_pos ⟨h, hb r (List.mem_cons_self r rs)⟩, if_pos h]
    rw [hstep]
    simp only [List.getD_eq_getElem?_getD] at *
    by_cases h : diagIdx n r (perm[r]?.getD 0) = d <;>
      simp [h, List.filter_cons] <;> omega

lemma initFold_getC_antidiag (n : Nat) (perm : List Nat) (rs : List Nat) (s0 : MCBoard)
    (a : Nat)
    (hb : ∀ r ∈ rs, antiIdx r (perm.getD r 0) < s0.antidiag.length) :
    getC (rs.foldl (initStep n perm) s0).antidiag a
      = getC s0.antidiag a
        + ((rs.filter (fun r => antiIdx r (perm.getD r 0) = a)).length : Int) := by
  induction rs generalizing s0 with
  | nil => simp
  | cons r rs ih =>
    rw [List.foldl_cons,
      ih _ (fun r' hr' => by simpa [initStep, bump_length] using hb r' (List.mem_cons_of_mem _ hr'))]
    have hstep : getC (initStep n perm s0 r).antidiag a
        = getC s0.antidiag a + (if antiIdx r (perm.getD r 0) = a then 1 else 0) := by
      simp only [initStep, getC_bump]
      rcases Nat.decEq (antiIdx r (perm.getD r 0)) a with h | h
      · rw [if_neg (by tauto), if_neg (by tauto)]
      · rw [if_pos ⟨h, hb r (List.mem_cons_self r rs)⟩, if_pos h]
    rw [hstep]
    simp only [List.getD_eq_getElem?_getD] at *
    by_cases h : antiIdx r (perm[r]?.getD 0) = a <;>
      simp [h, List.filter_cons] <;> omega

lemma getC_replicate (m i : Nat) : getC (List.replicate m (0 : Int)) i = 0 := by
  simp [getC, List.getD_replicate_default_eq]

lemma length_filter_range (n : Nat) (p : Nat → Prop) [DecidablePred p] :
    ((List.range n).filter (fun r => p r)).length = ((Finset.range n).filter p).card := by
  induction n with
  | zero => rfl
  | succ m ih =>
    rw [List.range_succ, List.filter_append, List.length_append, ih,
      Finset.range_succ, Finset.filter_insert]
    by_cases h : p m
    · rw [if_pos h, Finset.card_insert_of_not_mem (by simp)]
      simp [h]
    · rw [if_neg h]
      simp [h]

/-! ### The invariant holds after construction and is preserved by swaps -/

lemma initBoard_Inv {n : Nat} {perm : List Nat} (hp : isPermutation n perm) :
    Inv (initBoard n perm) := by
  have hn : (initBoard n perm).n = n := initFold_n n perm (List.range n) _
  have hb : (initBoard n perm).board = perm := initFold_board n perm (List.range n) _
  have hdb : ∀ r ∈ List.range n,
      diagIdx n r (perm.getD r 0) < (List.replicate (2 * n - 1) (0 : Int)).length := by
    intro r hr
    have hrn : r < n := List.mem_range.1 hr
    have hcol : perm.getD r 0 < n := isPermutation_getD_lt hp hrn
    simp only [List.length_replicate]
    unfold diagIdx
    omega
  have hab : ∀ r ∈ List.range n,
      antiIdx r (perm.getD r 0) < (List.replicate (2 * n - 1) (0 : Int)).length := by
    intro r hr
    have hrn : r < n := List.mem_range.1 hr
    have hcol : perm.getD r 0 < n := isPermutation_getD_lt hp hrn
    simp only [List.length_replicate]
    unfold antiIdx
    omega
  refine ⟨by rw [hb, hn]; exact hp.1, by rw [hn, hb]; exact hp, ?_, ?_, ?_, ?_⟩
  · rw [hn]
    unfold initBoard
    rw [initFold_diag_length]
    simp
  · rw [hn]
    unfold initBoard
    rw [initFold_antidiag_length]
    simp
  · simp only [hn, hb]
    intro d hd
    unfold initBoard
    rw [initFold_getC_diag n perm (List.range n) _ d hdb, getC_replicate, zero_add]
    rw [scanCount, ← length_filter_range]
  · simp only [hn, hb]
    intro a ha
    unfold initBoard
    rw [initFold_getC_antidiag n perm (List.range n) _ a hab, getC_replicate, zero_add]
    rw [scanCount, ← length_filter_range]

lemma swapQueens_n (s : MCBoard) (r1 r2 : Nat) : (swapQueens s r1 r2).n = s.n := by
  unfold swapQueens
  by_cases h : r1 = r2 <;> simp [h]

lemma swapQueens_Inv {s : MCBoard} (h : Inv s) {r1 r2 : Nat}
    (h1 : r1 < s.n) (h2 : r2 < s.n) : Inv (swapQueens s r1 r2) := by
  by_cases heq : r1 = r2
  · simpa [swapQueens, heq] using h
  obtain ⟨hlen, hperm, hdl, hal, hd, ha⟩ := h
  have hc1 : s.board.getD r1 0 < s.n := isPermutation_getD_lt hperm h1
  have hc2 : s.board.getD r2 0 < s.n := isPermutation_getD_lt hperm h2
  have hA1 : diagIdx s.n r1 (s.board.getD r1 0) < 2 * s.n - 1 := by unfold diagIdx; omega
  have hA2 : diagIdx s.n r2 (s.board.getD r2 0) < 2 * s.n - 1 := by unfold diagIdx; omega
  have hB1 : diagIdx s.n r1 (s.board.getD r2 0) < 2 * s.n - 1 := by unfold diagIdx; omega
  have hB2 : diagIdx s.n r2 (s.board.getD r1 0) < 2 * s.n - 1 := by unfold diagIdx; omega
  have hA1' : antiIdx r1 (s.board.getD r1 0) < 2 * s.n - 1 := by unfold antiIdx; omega
  have hA2' : antiIdx r2 (s.board.getD r2 0) < 2 * s.n - 1 := by unfold antiIdx; omega
  have hB1' : antiIdx r1 (s.board.getD r2 0) < 2 * s.n - 1 := by unfold antiIdx; omega
  have hB2' : antiIdx r2 (s.board.getD r1 0) < 2 * s.n - 1 := by unfold antiIdx; omega
  rw [swapQueens, if_neg heq]
  simp only []
  refine ⟨by simpa using hlen, ?_, ?_, ?_, ?_, ?_⟩
  · simpa using isPermutation_exchange hperm h1 h2 heq
  · simp [bump_length, hdl]
  · simp [bump_length, hal]
  · intro d hd'
    simp only [] at hd' ⊢
    have hsc := scanCount_exchange s.board (s.board.getD r2 0) (s.board.getD r1 0)
      (diagIdx s.n) d h1 h2 heq hlen
    have hgd := hd d (by simpa using hd')
    simp only [getC_bump, bump_length, hdl, hA1, hA2, hB1, hB2, and_true, hgd]
    split_ifs at hsc ⊢ <;> omega
  · intro a ha'
    simp only [] at ha' ⊢
    have hsc := scanCount_exchange s.board (s.board.getD r2 0) (s.board.getD r1 0)
      antiIdx a h1 h2 heq hlen
    have hga := ha a (by simpa using ha')
    simp only [getC_bump, bump_length, hal, hA1', hA2', hB1', hB2', and_true, hga]
    split_ifs at hsc ⊢ <;> omega

/-! ### Swap involution -/

lemma swapQueens_self (s : MCBoard) (r : Nat) : swapQueens s r r = s := by
  simp [swapQueens]

lemma list_ext_getD (l1 l2 : List Nat) (hl : l1.length = l2.length)
    (h : ∀ i < l1.length, l1.getD i 0 = l2.getD i 0) : l1 = l2 := by
  apply List.ext_getElem hl
  intro i hi1 hi2
  have := h i hi1
  rwa [List.getD_eq_getElem _ _ hi1, List.getD_eq_getElem _ _ hi2] at this

lemma int_list_ext_getD (l1 l2 : List Int) (hl : l1.length = l2.length)
    (h : ∀ i < l1.length, getC l1 i = getC l2 i) : l1 = l2 := by
  apply List.ext_getElem hl
  intro i hi1 hi2
  have := h i hi1
  unfold getC at this
  rwa [List.getD_eq_getElem _ _ hi1, List.getD_eq_getElem _ _ hi2] at this

lemma set_exchange_invol (l : List Nat) {r1 r2 : Nat} (h1 : r1 < l.length)
    (h2 : r2 < l.length) :
    ((((l.set r1 (l.getD r2 0)).set r2 (l.getD r1 0)).set r1 (l.getD r1 0)).set r2
        (l.getD r2 0)) = l := by
  apply list_ext_getD
  · simp
  · intro i hi
    simp only [List.length_set] at hi
    rcases eq_or_ne r2 i with rfl | hir2
    · rw [getD_set, if_pos ⟨rfl, by simp only [List.length_set]; exact h2⟩]
    rcases eq_or_ne r1 i with rfl | hir1
    · rw [getD_set, if_neg (by simp only [List.length_set]; omega),
        getD_set, if_pos ⟨rfl, by simp only [List.length_set]; exact h1⟩]
    · rw [getD_set, if_neg (by omega), getD_set, if_neg (by omega),
        getD_set, if_neg (by omega), getD_set, if_neg (by omega)]

/-- Applying `swap_queens` twice with the same valid rows restores the
exact state. -/
lemma swapQueens_invol (s : MCBoard) {r1 r2 : Nat} (h1 : r1 < s.n) (h2 : r2 < s.n)
    (hlen : s.board.length = s.n) :
    swapQueens (swapQueens s r1 r2) r1 r2 = s := by
  by_cases heq : r1 = r2
  · rw [heq, swapQueens_self, swapQueens_self]
  have hl1 : r1 < s.board.length := by omega
  have hl2 : r2 < s.board.length := by omega
  obtain ⟨n0, b0, d0, a0⟩ := s
  simp only at hl1 hl2
  rw [swapQueens, if_neg heq, swapQueens, if_neg heq]
  simp only [MCBoard.mk.injEq]
  have hg1 : ((b0.set r1 (b0.getD r2 0)).set r2 (b0.getD r1 0)).getD r1 0
      = b0.getD r2 0 := by
    rw [getD_set, if_neg (by omega), getD_set, if_pos ⟨rfl, hl1⟩]
  have hg2 : ((b0.set r1 (b0.getD r2 0)).set r2 (b0.getD r1 0)).getD r2 0
      = b0.getD r1 0 := by
    rw [getD_set, if_pos ⟨rfl, by simpa using hl2⟩]
  refine ⟨trivial, ?_, ?_, ?_⟩
  · rw [hg1, hg2]
    exact set_exchange_invol b0 hl1 hl2
  · rw [hg1, hg2]
    apply int_list_ext_getD
    · simp [bump_length]
    · intro i hi
      simp only [getC_bump, bump_length]
      split_ifs <;> omega
  · rw [hg1, hg2]
    apply int_list_ext_getD
    · simp [bump_length]
    · intro i hi
      simp only [getC_bump, bump_length]
      split_ifs <;> omega

/-! ### `total_conflicts` agrees with the naive pair count: fold bridges -/

lemma foldl_pairStep (l : List Int) (a : Int) :
    l.foldl pairStep a
      = a + (l.map (fun c => if c > 1 then c * (c - 1) / 2 else 0)).sum := by
  induction l generalizing a with
  | nil => simp
  | cons c t ih =>
    rw [List.foldl_cons, ih]
    unfold pairStep
    by_cases h : c > 1 <;> simp [h] <;> ring

lemma sum_map_getC (l : List Int) (g : Int → Int) :
    (l.map g).sum = ∑ d ∈ Finset.range l.length, g (getC l d) := by
  induction l with
  | nil => simp
  | cons c t ih =>
    rw [List.map_cons, List.sum_cons, ih, List.length_cons, Finset.sum_range_succ']
    simp only [getC, List.getD_cons_succ, List.getD_cons_zero]
    ring

lemma pairTerm_cast (c : Nat) :
    (if (c : Int) > 1 then (c : Int) * ((c : Int) - 1) / 2 else 0)
      = ((c * (c - 1) / 2 : Nat) : Int) := by
  match c with
  | 0 => simp
  | 1 => simp
  | (c + 2) =>
    have h2 : 2 ∣ (c + 2) * (c + 1) := by
      have h := (Nat.even_mul_succ_self (c + 1)).two_dvd
      rwa [Nat.mul_comm] at h
    obtain ⟨k, hk⟩ := h2
    have hk' : ((c + 2 : Nat) : Int) * ((c + 1 : Nat) : Int) = 2 * (k : Int) := by
      exact_mod_cast congrArg (Nat.cast : Nat → Int) hk
    have hsub : ((c + 2 : Nat) : Int) - 1 = ((c + 1 : Nat) : Int) := by push_cast; ring
    rw [if_pos (by push_cast; omega), hsub, hk',
      Int.mul_ediv_cancel_left _ (by norm_num)]
    have hr : (c + 2) * (c + 2 - 1) = 2 * k := by
      rw [show c + 2 - 1 = c + 1 from rfl]
      exact hk
    rw [hr, Nat.mul_div_cancel_left _ (by norm_num)]

lemma two_dvd_mul_pred (c : Nat) : 2 ∣ c * (c - 1) := by
  rcases c with _ | c'
  · simp
  · have h := (Nat.even_mul_succ_self c').two_dvd
    have he : (c' + 1) * (c' + 1 - 1) = c' * (c' + 1) := by
      simp [Nat.mul_comm]
    rw [he]
    exact h

lemma sum_div_two (S : Finset Nat) (e : Nat → Nat) (he : ∀ d ∈ S, 2 ∣ e d) :
    ∑ d ∈ S, e d / 2 = (∑ d ∈ S, e d) / 2 := by
  have hmul : ∑ d ∈ S, e d = 2 * ∑ d ∈ S, e d / 2 := by
    rw [Finset.mul_sum]
    refine Finset.sum_congr rfl fun d hd => ?_
    have := he d hd
    omega
  omega

/-! ### Counting same-bucket pairs through the fibers of a bucket map -/

lemma card_pairsOrd (n m : Nat) (f : Nat → Nat) (hf : ∀ r < n, f r < m) :
    ((Finset.range n ×ˢ Finset.range n).filter
        (fun p => p.1 ≠ p.2 ∧ f p.1 = f p.2)).card
      = ∑ d ∈ Finset.range m,
          ((Finset.range n).filter (fun r => f r = d)).card
            * (((Finset.range n).filter (fun r => f r = d)).card - 1) := by
  have h1 : ((Finset.range n ×ˢ Finset.range n).filter
      (fun p => p.1 ≠ p.2 ∧ f p.1 = f p.2)).card
      = ∑ i ∈ Finset.range n,
          ((Finset.range n).filter (fun j => i ≠ j ∧ f i = f j)).card := by
    rw [Finset.card_filter, Finset.sum_product]
    exact Finset.sum_congr rfl fun i _ => (Finset.card_filter _ _).symm
  have h2 : ∀ i ∈ Finset.range n,
      ((Finset.range n).filter (fun j => i ≠ j ∧ f i = f j)).card
        = ((Finset.range n).filter (fun r => f r = f i)).card - 1 := by
    intro i hi
    have hset : (Finset.range n).filter (fun j => i ≠ j ∧ f i = f j)
        = ((Finset.range n).filter (fun r => f r = f i)).erase i := by
      ext j
      simp only [Finset.mem_filter, Finset.mem_erase]
      constructor
      · rintro ⟨hj, hne, hfe⟩
        exact ⟨fun h => hne h.symm, hj, hfe.symm⟩
      · rintro ⟨hne, hj, hfe⟩
        exact ⟨hj, fun h => hne h.symm, hfe.symm⟩
    have hmem : i ∈ (Finset.range n).filter (fun r => f r = f i) :=
      Finset.mem_filter.2 ⟨hi, rfl⟩
    rw [hset, Finset.card_erase_of_mem hmem]
  rw [h1, Finset.sum_congr rfl h2,
    ← Finset.sum_fiberwise_of_maps_to
      (fun i hi => Finset.mem_range.2 (hf i (Finset.mem_range.1 hi)))
      (fun i => ((Finset.range n).filter (fun r => f r = f i)).card - 1)]
  refine Finset.sum_congr rfl fun d _ => ?_
  rw [Finset.sum_congr rfl
    (fun i hi => by rw [(Finset.mem_filter.1 hi).2]),
    Finset.sum_const, smul_eq_mul]

lemma card_pairsOrd_two_mul (n : Nat) (f : Nat → Nat) :
    ((Finset.range n ×ˢ Finset.range n).filter
        (fun p => p.1 ≠ p.2 ∧ f p.1 = f p.2)).card
      = 2 * ((Finset.range n ×ˢ Finset.range n).filter
          (fun p => p.1 < p.2 ∧ f p.1 = f p.2)).card := by
  have hbij : ((Finset.range n ×ˢ Finset.range n).filter
      (fun p => p.2 < p.1 ∧ f p.1 = f p.2)).card
      = ((Finset.range n ×ˢ Finset.range n).filter
          (fun p => p.1 < p.2 ∧ f p.1 = f p.2)).card := by
    apply Finset.card_bij (fun p _ => Prod.swap p)
    · intro p hp
      simp only [Finset.mem_filter, Finset.mem_product, Prod.fst_swap,
        Prod.snd_swap] at hp ⊢
      exact ⟨⟨hp.1.2, hp.1.1⟩, hp.2.1, hp.2.2.symm⟩
    · intro p _ q _ h
      exact Prod.swap_injective h
    · intro q hq
      refine ⟨Prod.swap q, ?_, by simp⟩
      simp only [Finset.mem_filter, Finset.mem_product, Prod.fst_swap,
        Prod.snd_swap] at hq ⊢
      exact ⟨⟨hq.1.2, hq.1.1⟩, hq.2.1, hq.2.2.symm⟩
  have hunion : (Finset.range n ×ˢ Finset.range n).filter
      (fun p => p.1 ≠ p.2 ∧ f p.1 = f p.2)
      = ((Finset.range n ×ˢ Finset.range n).filter
          (fun p => p.1 < p.2 ∧ f p.1 = f p.2))
        ∪ ((Finset.range n ×ˢ Finset.range n).filter
          (fun p => p.2 < p.1 ∧ f p.1 = f p.2)) := by
    ext p
    simp only [Finset.mem_filter, Finset.mem_union]
    constructor
    · rintro ⟨hp, hne, hfe⟩
      rcases Nat.lt_or_ge p.1 p.2 with h | h
      · exact Or.inl ⟨hp, h, hfe⟩
      · exact Or.inr ⟨hp, by omega, hfe⟩
    · rintro (⟨hp, h, hfe⟩ | ⟨hp, h, hfe⟩)
      · exact ⟨hp, by omega, hfe⟩
      · exact ⟨hp, by omega, hfe⟩
  have hdisj : Disjoint
      ((Finset.range n ×ˢ Finset.range n).filter
        (fun p => p.1 < p.2 ∧ f p.1 = f p.2))
      ((Finset.range n ×ˢ Finset.range n).filter
        (fun p => p.2 < p.1 ∧ f p.1 = f p.2)) := by
    rw [Finset.disjoint_left]
    intro p hp hq
    have h1 := (Finset.mem_filter.1 hp).2.1
    have h2 := (Finset.mem_filter.1 hq).2.1
    omega
  rw [hunion, Finset.card_union_of_disjoint hdisj, hbij]
  omega

/-! ### The attack predicate splits into diagonal and anti-diagonal hits -/

lemma attack_iff {b : List Nat} {n i j : Nat} (hbi : b.getD i 0 < n)
    (hbj : b.getD j 0 < n) (hi : i < n) (hj : j < n) :
    attackP b i j
      ↔ diagIdx n i (b.getD i 0) = diagIdx n j (b.getD j 0)
        ∨ antiIdx i (b.getD i 0) = antiIdx j (b.getD j 0) := by
  unfold attackP diagIdx antiIdx
  omega

lemma attack_not_both {b : List Nat} {n i j : Nat} (hbi : b.getD i 0 < n)
    (hbj : b.getD j 0 < n) (hi : i < n) (hj : j < n) (hij : i ≠ j) :
    ¬(diagIdx n i (b.getD i 0) = diagIdx n j (b.getD j 0)
      ∧ antiIdx i (b.getD i 0) = antiIdx j (b.getD j 0)) := by
  unfold diagIdx antiIdx
  omega

lemma attackPairs_card_split (b : List Nat) (n : Nat) (hb : ∀ x ∈ b, x < n)
    (hlen : b.length = n) :
    ((Finset.range n ×ˢ Finset.range n).filter
        (fun p => p.1 < p.2 ∧ attackP b p.1 p.2)).card
      = ((Finset.range n ×ˢ Finset.range n).filter
          (fun p => p.1 < p.2
            ∧ diagIdx n p.1 (b.getD p.1 0) = diagIdx n p.2 (b.getD p.2 0))).card
        + ((Finset.range n ×ˢ Finset.range n).filter
            (fun p => p.1 < p.2
              ∧ antiIdx p.1 (b.getD p.1 0) = antiIdx p.2 (b.getD p.2 0))).card := by
  have hcol : ∀ r, r < n → b.getD r 0 < n := by
    intro r hr
    have hrl : r < b.length := by omega
    have hmem : b.getD r 0 ∈ b := by
      rw [List.getD_eq_getElem _ _ hrl]
      exact List.getElem_mem hrl
    exact hb _ hmem
  have hdisj : Disjoint
      ((Finset.range n ×ˢ Finset.range n).filter
        (fun p => p.1 < p.2
          ∧ diagIdx n p.1 (b.getD p.1 0) = diagIdx n p.2 (b.getD p.2 0)))
      ((Finset.range n ×ˢ Finset.range n).filter
        (fun p => p.1 < p.2
          ∧ antiIdx p.1 (b.getD p.1 0) = antiIdx p.2 (b.getD p.2 0))) := by
    rw [Finset.disjoint_left]
    intro p hp hq
    have hp' := Finset.mem_filter.1 hp
    have hq' := Finset.mem_filter.1 hq
    have hpr := Finset.mem_product.1 hp'.1
    have h1 := Finset.mem_range.1 hpr.1
    have h2 := Finset.mem_range.1 hpr.2
    exact attack_not_both (hcol _ h1) (hcol _ h2) h1 h2 (by omega)
      ⟨hp'.2.2, hq'.2.2⟩
  rw [← Finset.card_union_of_disjoint hdisj]
  congr 1
  ext p
  simp only [Finset.mem_filter, Finset.mem_union, Finset.mem_product,
    Finset.mem_range]
  constructor
  · rintro ⟨⟨hp1, hp2⟩, hlt, hatt⟩
    rcases (attack_iff (hcol _ hp1) (hcol _ hp2) hp1 hp2).1 hatt with h | h
    · exact Or.inl ⟨⟨hp1, hp2⟩, hlt, h⟩
    · exact Or.inr ⟨⟨hp1, hp2⟩, hlt, h⟩
  · rintro (⟨⟨hp1, hp2⟩, hlt, h⟩ | ⟨⟨hp1, hp2⟩, hlt, h⟩)
    · exact ⟨⟨hp1, hp2⟩, hlt, (attack_iff (hcol _ hp1) (hcol _ hp2) hp1 hp2).2 (Or.inl h)⟩
    · exact ⟨⟨hp1, hp2⟩, hlt, (attack_iff (hcol _ hp1) (hcol _ hp2) hp1 hp2).2 (Or.inr h)⟩

/-! ### Bridging the nested loops of `count_conflicts` to a pair count -/

lemma foldl_count (p : Nat → Prop) [DecidablePred p] (l : List Nat) (a : Nat) :
    l.foldl (fun c j => if p j then c + 1 else c) a
      = a + (l.filter (fun j => p j)).length := by
  induction l generalizing a with
  | nil => simp
  | cons x t ih =>
    rw [List.foldl_cons, ih, List.filter_cons]
    by_cases h : p x <;> simp [h] <;> omega

lemma filter_range'_shift (n i : Nat) (p : Nat → Prop) [DecidablePred p]
    (hi : i < n) :
    ((List.range' (i + 1) (n - (i + 1))).filter (fun j => p j)).length
      = ((List.range n).filter (fun j => i < j ∧ p j)).length := by
  have hr0 : List.range n
      = List.range' 0 (i + 1) ++ List.range' (0 + (i + 1)) (n - (i + 1)) := by
    rw [List.range'_append_1, List.range_eq_range']
    congr 1
    omega
  have hr : List.range n = List.range' 0 (i + 1) ++ List.range' (i + 1) (n - (i + 1)) := by
    rwa [Nat.zero_add] at hr0
  rw [hr, List.filter_append, List.length_append]
  have h1 : (List.range' 0 (i + 1)).filter (fun j => decide (i < j ∧ p j)) = [] := by
    rw [List.filter_eq_nil_iff]
    intro j hj
    have hjm := List.mem_range'_1.1 hj
    simp only [decide_eq_true_eq]
    omega
  have h2 : (List.range' (i + 1) (n - (i + 1))).filter (fun j => decide (i < j ∧ p j))
      = (List.range' (i + 1) (n - (i + 1))).filter (fun j => p j) := by
    apply List.filter_congr
    intro j hj
    have hjm := List.mem_range'_1.1 hj
    simp only [decide_eq_true_eq, decide_eq_decide]
    constructor
    · exact fun h => h.2
    · exact fun h => ⟨by omega, h⟩
  rw [h1, h2]
  simp

lemma foldl_inner_count (b : List Nat) (n : Nat) (l : List Nat) (a : Nat) :
    l.foldl (fun conflicts i =>
        (List.range' (i + 1) (n - (i + 1))).foldl
          (fun c j => if attackP b i j then c + 1 else c) conflicts) a
      = a + (l.map (fun i =>
          ((List.range' (i + 1) (n - (i + 1))).filter
            (fun j => attackP b i j)).length)).sum := by
  induction l generalizing a with
  | nil => simp
  | cons x t ih =>
    rw [List.foldl_cons, ih, foldl_count]
    simp only [List.map_cons, List.sum_cons]
    omega

lemma sum_map_list_range (g : Nat → Nat) (n : Nat) :
    ((List.range n).map g).sum = ∑ i ∈ Finset.range n, g i := by
  induction n with
  | zero => simp
  | succ m ih =>
    rw [List.range_succ, List.map_append, List.sum_append, ih,
      Finset.sum_range_succ]
    simp

lemma card_product_lt (n : Nat) (q : Nat → Nat → Prop)
    [inst : ∀ i j, Decidable (q i j)] :
    ((Finset.range n ×ˢ Finset.range n).filter
        (fun p => p.1 < p.2 ∧ q p.1 p.2)).card
      = ∑ i ∈ Finset.range n,
          ((Finset.range n).filter (fun j => i < j ∧ q i j)).card := by
  rw [Finset.card_filter, Finset.sum_product]
  exact Finset.sum_congr rfl fun i _ => (Finset.card_filter _ _).symm

lemma count_conflicts_eq_card (b : List Nat) (n : Nat) :
    count_conflicts b n
      = ((Finset.range n ×ˢ Finset.range n).filter
          (fun p => p.1 < p.2 ∧ attackP b p.1 p.2)).card := by
  unfold count_conflicts
  rw [foldl_inner_count, Nat.zero_add, sum_map_list_range, card_product_lt]
  refine Finset.sum_congr rfl fun i hi => ?_
  rw [filter_range'_shift n i _ (Finset.mem_range.1 hi), length_filter_range]

/-! ### Assembling `total_conflicts = count_conflicts` -/

lemma sum_scan_choose2 (n m : Nat) (b : List Nat) (fIdx : Nat → Nat → Nat)
    (hf : ∀ r < n, fIdx r (b.getD r 0) < m) :
    ∑ d ∈ Finset.range m,
        scanCount n b fIdx d * (scanCount n b fIdx d - 1) / 2
      = ((Finset.range n ×ˢ Finset.range n).filter
          (fun p => p.1 < p.2
            ∧ fIdx p.1 (b.getD p.1 0) = fIdx p.2 (b.getD p.2 0))).card := by
  have h1 := card_pairsOrd n m (fun r => fIdx r (b.getD r 0)) hf
  have h2 := card_pairsOrd_two_mul n (fun r => fIdx r (b.getD r 0))
  beta_reduce at h1 h2
  unfold scanCount
  rw [sum_div_two _ _ (fun d _ => two_dvd_mul_pred _)]
  omega

lemma counter_fold_sum (n0 : Nat) (b : List Nat) (fIdx : Nat → Nat → Nat)
    (cl : List Int) (hcl : cl.length = 2 * n0 - 1)
    (hc : ∀ d < 2 * n0 - 1, getC cl d = (scanCount n0 b fIdx d : Int)) :
    (cl.map (fun c => if c > 1 then c * (c - 1) / 2 else 0)).sum
      = ((∑ d ∈ Finset.range (2 * n0 - 1),
          scanCount n0 b fIdx d * (scanCount n0 b fIdx d - 1) / 2 : Nat) : Int) := by
  rw [sum_map_getC, hcl, Nat.cast_sum]
  refine Finset.sum_congr rfl fun d hd => ?_
  rw [hc d (Finset.mem_range.1 hd), pairTerm_cast]

/-- Core refinement fact: on a consistent state, the counter-based
`total_conflicts` equals the naive pairwise scan `count_conflicts`. -/
lemma totalConflicts_eq_count {s : MCBoard} (h : Inv s) :
    totalConflicts s = (count_conflicts s.board s.n : Int) := by
  obtain ⟨hlen, hperm, hdl, hal, hd, ha⟩ := h
  have hb := isPermutation_mem_lt hperm
  have hfd : ∀ r < s.n, diagIdx s.n r (s.board.getD r 0) < 2 * s.n - 1 := by
    intro r hr
    unfold diagIdx
    omega
  have hfa : ∀ r < s.n, antiIdx r (s.board.getD r 0) < 2 * s.n - 1 := by
    intro r hr
    have hcb : s.board.getD r 0 < s.n := isPermutation_getD_lt hperm hr
    unfold antiIdx
    omega
  unfold totalConflicts
  rw [foldl_pairStep, foldl_pairStep, zero_add]
  rw [counter_fold_sum s.n s.board (diagIdx s.n) s.diag hdl hd,
    counter_fold_sum s.n s.board antiIdx s.antidiag hal ha]
  rw [sum_scan_choose2 s.n (2 * s.n - 1) s.board (diagIdx s.n) hfd,
    sum_scan_choose2 s.n (2 * s.n - 1) s.board antiIdx hfa]
  rw [← Nat.cast_add, ← attackPairs_card_split s.board s.n hb hlen,
    ← count_conflicts_eq_card]

/-! ### Facts about the candidate-selection folds -/

lemma conflictsAt_nonneg (s : MCBoard) (row col : Nat) :
    0 ≤ conflictsAt s row col := le_max_left 0 _

lemma chooseFrom_mem (picks : Nat → Nat) (k : Nat) (l : List Nat) (h : l ≠ []) :
    chooseFrom picks k l ∈ l := by
  unfold chooseFrom
  have hlen : 0 < l.length := List.length_pos.2 h
  have hmod : picks k % l.length < l.length := Nat.mod_lt _ hlen
  rw [List.getD_eq_getElem _ _ hmod]
  exact List.getElem_mem hmod

lemma mcFold_inv (s : MCBoard) (rs : List Nat) :
    ∀ acc : Int × List Nat, 0 ≤ acc.1 → (0 < acc.1 → acc.2 ≠ []) →
      (∀ r ∈ acc.2, r ∈ rs ∨ False → True) →
      0 ≤ (rs.foldl (mcStep s) acc).1
      ∧ (0 < (rs.foldl (mcStep s) acc).1 → (rs.foldl (mcStep s) acc).2 ≠ [])
      ∧ (∀ r ∈ rs, conflictsAt s r (s.board.getD r 0) ≤ (rs.foldl (mcStep s) acc).1)
      ∧ acc.1 ≤ (rs.foldl (mcStep s) acc).1
      ∧ (∀ r ∈ (rs.foldl (mcStep s) acc).2, r ∈ acc.2 ∨ r ∈ rs) := by
  induction rs with
  | nil =>
    intro acc h0 h1 _
    exact ⟨h0, h1, by simp, le_refl _, fun r hr => Or.inl hr⟩
  | cons x t ih =>
    intro acc h0 h1 _
    have hcx := conflictsAt_nonneg s x (s.board.getD x 0)
    have hstep : 0 ≤ (mcStep s acc x).1
        ∧ (0 < (mcStep s acc x).1 → (mcStep s acc x).2 ≠ [])
        ∧ conflictsAt s x (s.board.getD x 0) ≤ (mcStep s acc x).1
        ∧ acc.1 ≤ (mcStep s acc x).1
        ∧ (∀ r ∈ (mcStep s acc x).2, r ∈ acc.2 ∨ r = x) := by
      simp only [mcStep]
      split_ifs with hgt heq
      · exact ⟨hcx, fun _ => by simp, le_refl _, le_of_lt hgt,
          fun r hr => Or.inr (by simpa using hr)⟩
      · refine ⟨h0, fun _ => by simp, le_of_eq heq.1, le_refl _, fun r hr => ?_⟩
        rcases List.mem_append.1 hr with h | h
        · exact Or.inl h
        · exact Or.inr (by simpa using h)
      · have hle : conflictsAt s x (s.board.getD x 0) ≤ acc.1 := by
          rcases lt_trichotomy (conflictsAt s x (s.board.getD x 0)) acc.1 with h | h | h
          · exact le_of_lt h
          · exact le_of_eq h
          · exact absurd h hgt
        exact ⟨h0, h1, hle, le_refl _, fun r hr => Or.inl hr⟩
    rw [List.foldl_cons]
    obtain ⟨g0, g1, g2, g3, g4⟩ :=
      ih (mcStep s acc x) hstep.1 hstep.2.1 (fun r _ _ => trivial)
    refine ⟨g0, g1, ?_, le_trans hstep.2.2.2.1 g3, ?_⟩
    · intro r hr
      rcases List.mem_cons.1 hr with rfl | hrt
      · exact le_trans hstep.2.2.1 g3
      · exact g2 r hrt
    · intro r hr
      rcases g4 r hr with h | h
      · rcases hstep.2.2.2.2 r h with h' | h'
        · exact Or.inl h'
        · exact Or.inr (by simp [h'])
      · exact Or.inr (List.mem_cons_of_mem _ h)

lemma mostConflicted_mem_lt (s : MCBoard) :
    ∀ r ∈ mostConflicted s, r < s.n := by
  intro r hr
  unfold mostConflicted at hr
  obtain ⟨-, -, -, -, g4⟩ :=
    mcFold_inv s (List.range s.n) ((0 : Int), ([] : List Nat)) (le_refl 0)
      (by simp) (fun r _ _ => trivial)
  rcases g4 r hr with h | h
  · simp at h
  · exact List.mem_range.1 h

lemma mostConflicted_ne_nil (s : MCBoard)
    (hex : ∃ r < s.n, 0 < conflictsAt s r (s.board.getD r 0)) :
    mostConflicted s ≠ [] := by
  obtain ⟨r, hr, hpos⟩ := hex
  unfold mostConflicted
  obtain ⟨g0, g1, g2, -, -⟩ :=
    mcFold_inv s (List.range s.n) ((0 : Int), ([] : List Nat)) (le_refl 0)
      (by simp) (fun r _ _ => trivial)
  exact g1 (lt_of_lt_of_le hpos (g2 r (List.mem_range.2 hr)))

lemma bsFold_go (score : Nat → Int) (rest : List Nat) :
    ∀ (m : Int) (best d : List Nat), best ≠ [] →
      (∀ b ∈ best, b ∈ d ∧ score b = m) →
      (∀ x ∈ d, m ≤ score x) →
      ∃ m' best', rest.foldl (bsStep score) (some m, best) = (some m', best')
        ∧ best' ≠ []
        ∧ (∀ b ∈ best', (b ∈ d ∨ b ∈ rest) ∧ score b = m')
        ∧ (∀ x ∈ d, m' ≤ score x)
        ∧ (∀ x ∈ rest, m' ≤ score x) := by
  induction rest with
  | nil =>
    intro m best d h1 h2 h3
    exact ⟨m, best, rfl, h1, fun b hb => ⟨Or.inl (h2 b hb).1, (h2 b hb).2⟩, h3,
      by simp⟩
  | cons x t ih =>
    intro m best d h1 h2 h3
    rw [List.foldl_cons]
    have hred : bsStep score (some m, best) x
        = if score x < m then (some (score x), [x])
          else if score x = m then (some m, best ++ [x])
          else (some m, best) := rfl
    by_cases hlt : score x < m
    · rw [hred, if_pos hlt]
      obtain ⟨m', b', heq, hne, hmem, hdle, htle⟩ :=
        ih (score x) [x] (d ++ [x]) (by simp)
          (fun b hb => ⟨by simp [List.mem_singleton.1 hb], by simp [List.mem_singleton.1 hb]⟩)
          (fun y hy => by
            rcases List.mem_append.1 hy with h | h
            · exact le_of_lt (lt_of_lt_of_le hlt (h3 y h))
            · simp only [List.mem_singleton.1 h]; exact le_refl _)
      refine ⟨m', b', heq, hne, ?_, ?_, ?_⟩
      · intro b hb
        obtain ⟨hin, hsc⟩ := hmem b hb
        refine ⟨?_, hsc⟩
        rcases hin with h | h
        · rcases List.mem_append.1 h with h' | h'
          · exact Or.inl h'
          · exact Or.inr (by simp [List.mem_singleton.1 h'])
        · exact Or.inr (List.mem_cons_of_mem _ h)
      · exact fun y hy => hdle y (List.mem_append_left _ hy)
      · intro y hy
        rcases List.mem_cons.1 hy with rfl | h
        · exact hdle y (List.mem_append_right _ (by simp))
        · exact htle y h
    · by_cases heqm : score x = m
      · rw [hred, if_neg hlt, if_pos heqm]
        obtain ⟨m', b', heq, hne, hmem, hdle, htle⟩ :=
          ih m (best ++ [x]) (d ++ [x]) (by simp [h1])
            (fun b hb => by
              rcases List.mem_append.1 hb with h | h
              · exact ⟨List.mem_append_left _ (h2 b h).1, (h2 b h).2⟩
              · exact ⟨List.mem_append_right _ h,
                  by rw [List.mem_singleton.1 h]; exact heqm⟩)
            (fun y hy => by
              rcases List.mem_append.1 hy with h | h
              · exact h3 y h
              · rw [List.mem_singleton.1 h]; exact le_of_eq heqm.symm)
        refine ⟨m', b', heq, hne, ?_, ?_, ?_⟩
        · intro b hb
          obtain ⟨hin, hsc⟩ := hmem b hb
          refine ⟨?_, hsc⟩
          rcases hin with h | h
          · rcases List.mem_append.1 h with h' | h'
            · exact Or.inl h'
            · exact Or.inr (by simp [List.mem_singleton.1 h'])
          · exact Or.inr (List.mem_cons_of_mem _ h)
        · exact fun y hy => hdle y (List.mem_append_left _ hy)
        · intro y hy
          rcases List.mem_cons.1 hy with rfl | h
          · exact hdle y (List.mem_append_right _ (by simp))
          · exact htle y h
      · rw [hred, if_neg hlt, if_neg heqm]
        have hgt : m < score x := by
          rcases lt_trichotomy (score x) m with h | h | h
          · exact absurd h hlt
          · exact absurd h heqm
          · exact h
        obtain ⟨m', b', heq, hne, hmem, hdle, htle⟩ :=
          ih m best (d ++ [x])
            (h1)
            (fun b hb => ⟨List.mem_append_left _ (h2 b hb).1, (h2 b hb).2⟩)
            (fun y hy => by
              rcases List.mem_append.1 hy with h | h
              · exact h3 y h
              · rw [List.mem_singleton.1 h]; exact le_of_lt hgt)
        refine ⟨m', b', heq, hne, ?_, ?_, ?_⟩
        · intro b hb
          obtain ⟨hin, hsc⟩ := hmem b hb
          refine ⟨?_, hsc⟩
          rcases hin with h | h
          · rcases List.mem_append.1 h with h' | h'
            · exact Or.inl h'
            · exact Or.inr (by simp [List.mem_singleton.1 h'])
          · exact Or.inr (List.mem_cons_of_mem _ h)
        · exact fun y hy => hdle y (List.mem_append_left _ hy)
        · intro y hy
          rcases List.mem_cons.1 hy with rfl | h
          · exact hdle y (List.mem_append_right _ (by simp))
          · exact htle y h

lemma minFold_spec (score : Nat → Int) (l : List Nat) (hne : l ≠ []) :
    ∃ m best, minFold score l = (some m, best) ∧ best ≠ []
      ∧ (∀ b ∈ best, b ∈ l ∧ score b = m)
      ∧ (∀ x ∈ l, m ≤ score x) := by
  match l, hne with
  | x :: t, _ =>
    unfold minFold
    rw [List.foldl_cons]
    have h0 : bsStep score (none, []) x = (some (score x), [x]) := rfl
    rw [h0]
    obtain ⟨m', best', heq, hne', hmem, hd, ht⟩ :=
      bsFold_go score t (score x) [x] [x] (by simp)
        (fun b hb => ⟨hb, by rw [List.mem_singleton.1 hb]⟩)
        (fun y hy => by rw [List.mem_singleton.1 hy])
    refine ⟨m', best', heq, hne', ?_, ?_⟩
    · intro b hb
      obtain ⟨hin, hsc⟩ := hmem b hb
      refine ⟨?_, hsc⟩
      rcases hin with h | h
      · exact by simp [List.mem_singleton.1 h]
      · exact List.mem_cons_of_mem _ h
    · intro y hy
      rcases List.mem_cons.1 hy with rfl | h
      · exact hd y (by simp)
      · exact ht y h

/-! ### Positive total conflicts force a positively conflicted queen -/

lemma conflictsAt_pos_of_buckets {a b : Int} (h : 3 ≤ a + b) :
    0 < max 0 (a + b - 2) :=
  lt_of_lt_of_le (by omega) (le_max_right 0 (a + b - 2))

lemma exists_conflicted {s : MCBoard} (h : Inv s) (hpos : 0 < totalConflicts s) :
    ∃ r < s.n, 0 < conflictsAt s r (s.board.getD r 0) := by
  have heq := totalConflicts_eq_count h
  obtain ⟨hlen, hperm, hdl, hal, hd, ha⟩ := h
  have hcount : 0 < count_conflicts s.board s.n := by
    rw [heq] at hpos
    exact_mod_cast hpos
  rw [count_conflicts_eq_card, Finset.card_pos] at hcount
  obtain ⟨p, hp⟩ := hcount
  obtain ⟨hpmem, hplt, hpatt⟩ := Finset.mem_filter.1 hp
  obtain ⟨hm1, hm2⟩ := Finset.mem_product.1 hpmem
  rw [Finset.mem_range] at hm1 hm2
  have hbi : s.board.getD p.1 0 < s.n := isPermutation_getD_lt hperm hm1
  have hbj : s.board.getD p.2 0 < s.n := isPermutation_getD_lt hperm hm2
  have hdidx : diagIdx s.n p.1 (s.board.getD p.1 0) < 2 * s.n - 1 := by
    unfold diagIdx; omega
  have haidx : antiIdx p.1 (s.board.getD p.1 0) < 2 * s.n - 1 := by
    unfold antiIdx; omega
  have hDself : 1 ≤ scanCount s.n s.board (diagIdx s.n)
      (diagIdx s.n p.1 (s.board.getD p.1 0)) := by
    unfold scanCount
    exact Finset.card_pos.2 ⟨p.1, Finset.mem_filter.2 ⟨Finset.mem_range.2 hm1, rfl⟩⟩
  have hAself : 1 ≤ scanCount s.n s.board antiIdx
      (antiIdx p.1 (s.board.getD p.1 0)) := by
    unfold scanCount
    exact Finset.card_pos.2 ⟨p.1, Finset.mem_filter.2 ⟨Finset.mem_range.2 hm1, rfl⟩⟩
  refine ⟨p.1, hm1, ?_⟩
  rcases (attack_iff hbi hbj hm1 hm2).1 hpatt with hcase | hcase
  · have hD2 : 2 ≤ scanCount s.n s.board (diagIdx s.n)
        (diagIdx s.n p.1 (s.board.getD p.1 0)) := by
      have hsub : ({p.1, p.2} : Finset Nat) ⊆ (Finset.range s.n).filter
          (fun r => diagIdx s.n r (s.board.getD r 0)
            = diagIdx s.n p.1 (s.board.getD p.1 0)) := by
        intro x hx
        rcases Finset.mem_insert.1 hx with rfl | hx
        · exact Finset.mem_filter.2 ⟨Finset.mem_range.2 hm1, rfl⟩
        · rw [Finset.mem_singleton] at hx
          subst hx
          exact Finset.mem_filter.2 ⟨Finset.mem_range.2 hm2, hcase.symm⟩
      have hcard : ({p.1, p.2} : Finset Nat).card = 2 := by
        rw [Finset.card_insert_of_not_mem (by simp; omega),
          Finset.card_singleton]
      calc 2 = ({p.1, p.2} : Finset Nat).card := hcard.symm
        _ ≤ _ := Finset.card_le_card hsub
    unfold conflictsAt
    apply conflictsAt_pos_of_buckets
    rw [hd _ hdidx, ha _ haidx]
    push_cast
    omega
  · have hA2 : 2 ≤ scanCount s.n s.board antiIdx
        (antiIdx p.1 (s.board.getD p.1 0)) := by
      have hsub : ({p.1, p.2} : Finset Nat) ⊆ (Finset.range s.n).filter
          (fun r => antiIdx r (s.board.getD r 0)
            = antiIdx p.1 (s.board.getD p.1 0)) := by
        intro x hx
        rcases Finset.mem_insert.1 hx with rfl | hx
        · exact Finset.mem_filter.2 ⟨Finset.mem_range.2 hm1, rfl⟩
        · rw [Finset.mem_singleton] at hx
          subst hx
          exact Finset.mem_filter.2 ⟨Finset.mem_range.2 hm2, hcase.symm⟩
      have hcard : ({p.1, p.2} : Finset Nat).card = 2 := by
        rw [Finset.card_insert_of_not_mem (by simp; omega),
          Finset.card_singleton]
      calc 2 = ({p.1, p.2} : Finset Nat).card := hcard.symm
        _ ≤ _ := Finset.card_le_card hsub
    unfold conflictsAt
    apply conflictsAt_pos_of_buckets
    rw [hd _ hdidx, ha _ haidx]
    push_cast
    omega

/-! ### No permutation of size 2 or 3 is conflict-free -/

lemma perm_mem_permutations {n : Nat} {b : List Nat} (hb : isPermutation n b) :
    b ∈ (List.range n).permutations' := by
  rw [List.mem_permutations', List.perm_iff_count]
  intro x
  by_cases hx : x < n
  · rw [hb.2 x hx,
      List.count_eq_one_of_mem (List.nodup_range n) (List.mem_range.2 hx)]
  · have h1 : b.count x = 0 :=
      List.count_eq_zero.2 (fun hmem => hx (isPermutation_mem_lt hb x hmem))
    have h2 : (List.range n).count x = 0 :=
      List.count_eq_zero.2 (by rw [List.mem_range]; omega)
    rw [h1, h2]

lemma count_pos_two_three {n : Nat} (hn : n = 2 ∨ n = 3) {b : List Nat}
    (hb : isPermutation n b) : 0 < count_conflicts b n := by
  have hmem := perm_mem_permutations hb
  rcases hn with rfl | rfl
  · have hall : ∀ c ∈ (List.range 2).permutations', 0 < count_conflicts c 2 := by
      decide
    exact hall b hmem
  · have hall : ∀ c ∈ (List.range 3).permutations', 0 < count_conflicts c 3 := by
      decide
    exact hall b hmem

/-! ### Loop-level lemmas -/

lemma n_pos_of_mostConflicted_ne_nil (s : MCBoard) (h : mostConflicted s ≠ []) :
    1 ≤ s.n := by
  by_contra hn
  push_neg at hn
  apply h
  unfold mostConflicted
  have h0 : s.n = 0 := by omega
  rw [h0]
  rfl

lemma bestSwapList_spec (s : MCBoard) (row : Nat) (hn : 1 ≤ s.n) :
    bestSwapList s row ≠ [] ∧ ∀ b ∈ bestSwapList s row, b < s.n := by
  have hne : List.range s.n ≠ [] := by
    rw [ne_eq, List.range_eq_nil]
    omega
  obtain ⟨m, best, heq, hbne, hmem, hmin⟩ :=
    minFold_spec (probeScore s row) (List.range s.n) hne
  unfold bestSwapList
  rw [heq]
  exact ⟨hbne, fun b hb => List.mem_range.1 (hmem b hb).1⟩

lemma get_best_swap_lt (s : MCBoard) (row : Nat) (picks : Nat → Nat) (k : Nat)
    (hn : 1 ≤ s.n) : get_best_swap s row picks k < s.n := by
  obtain ⟨hne, hsub⟩ := bestSwapList_spec s row hn
  exact hsub _ (chooseFrom_mem picks k _ hne)

lemma iterLoop_some (picks : Nat → Nat) (maxIt restart : Nat) :
    ∀ (fuel : Nat) (s : MCBoard) (k : Nat) (res : SolveResult) (k' : Nat),
      Inv s → fuel ≤ maxIt →
      iterLoop picks maxIt restart fuel s k = (some res, k') →
      ∃ s', Inv s' ∧ s'.n = s.n ∧ totalConflicts s' = 0
        ∧ res.board = some s'.board ∧ res.success = true
        ∧ res.restarts = restart + 1
        ∧ 1 ≤ res.iterations ∧ res.iterations ≤ maxIt := by
  intro fuel
  induction fuel with
  | zero =>
    intro s k res k' _ _ h
    simp [iterLoop] at h
  | succ f ih =>
    intro s k res k' hs hf h
    simp only [iterLoop] at h
    by_cases h0 : totalConflicts s = 0
    · rw [if_pos h0] at h
      have hres : some (⟨some s.board, maxIt - f, restart + 1, true⟩ : SolveResult)
          = some res := congrArg Prod.fst h
      rw [Option.some.injEq] at hres
      subst hres
      exact ⟨s, hs, rfl, h0, rfl, rfl, rfl,
        by show 1 ≤ maxIt - f; omega, by show maxIt - f ≤ maxIt; omega⟩
    · rw [if_neg h0] at h
      by_cases hm : mostConflicted s = []
      · rw [if_pos hm] at h
        exact ih s k res k' hs (by omega) h
      · rw [if_neg hm] at h
        have hnpos := n_pos_of_mostConflicted_ne_nil s hm
        have hrow : chooseFrom picks k (mostConflicted s) < s.n :=
          mostConflicted_mem_lt s _ (chooseFrom_mem picks k _ hm)
        have hother := get_best_swap_lt s (chooseFrom picks k (mostConflicted s))
          picks (k + 1) hnpos
        have hInv := swapQueens_Inv hs hrow hother
        obtain ⟨s', a1, a2, a3, a4, a5, a6, a7, a8⟩ :=
          ih _ (k + 2) res k' hInv (by omega) h
        exact ⟨s', a1, by rw [a2, swapQueens_n], a3, a4, a5, a6, a7, a8⟩

lemma iterLoop_none_23 (picks : Nat → Nat) (maxIt restart : Nat) :
    ∀ (fuel : Nat) (s : MCBoard) (k : Nat),
      Inv s → (s.n = 2 ∨ s.n = 3) →
      (iterLoop picks maxIt restart fuel s k).1 = none := by
  intro fuel
  induction fuel with
  | zero =>
    intro s k _ _
    simp [iterLoop]
  | succ f ih =>
    intro s k hs hn23
    have h0 : totalConflicts s ≠ 0 := by
      have heq := totalConflicts_eq_count hs
      have hc := count_pos_two_three hn23 hs.2.1
      rw [heq]
      exact_mod_cast Nat.pos_iff_ne_zero.1 hc
    simp only [iterLoop]
    rw [if_neg h0]
    by_cases hm : mostConflicted s = []
    · rw [if_pos hm]
      exact ih s k hs hn23
    · rw [if_neg hm]
      have hnpos := n_pos_of_mostConflicted_ne_nil s hm
      have hrow : chooseFrom picks k (mostConflicted s) < s.n :=
        mostConflicted_mem_lt s _ (chooseFrom_mem picks k _ hm)
      have hother := get_best_swap_lt s (chooseFrom picks k (mostConflicted s))
        picks (k + 1) hnpos
      have hInv := swapQueens_Inv hs hrow hother
      exact ih _ (k + 2) hInv (by rw [swapQueens_n]; exact hn23)

lemma restartLoop_cases (permSrc : Nat → List Nat) (picks : Nat → Nat)
    (n maxIt maxRe : Nat) (hperm : ∀ r, isPermutation n (permSrc r)) :
    ∀ (fuel k : Nat), fuel ≤ maxRe →
      restartLoop permSrc picks n maxIt maxRe fuel k
          = ⟨none, maxIt * maxRe, maxRe, false⟩
      ∨ (∃ s', Inv s' ∧ s'.n = n ∧ totalConflicts s' = 0
          ∧ (restartLoop permSrc picks n maxIt maxRe fuel k).board = some s'.board
          ∧ (restartLoop permSrc picks n maxIt maxRe fuel k).success = true
          ∧ 1 ≤ (restartLoop permSrc picks n maxIt maxRe fuel k).iterations
          ∧ (restartLoop permSrc picks n maxIt maxRe fuel k).iterations ≤ maxIt
          ∧ 1 ≤ (restartLoop permSrc picks n maxIt maxRe fuel k).restarts
          ∧ (restartLoop permSrc picks n maxIt maxRe fuel k).restarts ≤ maxRe) := by
  intro fuel
  induction fuel with
  | zero =>
    intro k _
    exact Or.inl rfl
  | succ f ih =>
    intro k hf
    rcases hit : iterLoop picks maxIt (maxRe - (f + 1)) maxIt
        (initBoard n (permSrc (maxRe - (f + 1)))) k with ⟨o, k2⟩
    have hrl : restartLoop permSrc picks n maxIt maxRe (f + 1) k
        = match (o, k2) with
          | (some res, _) => res
          | (none, k') => restartLoop permSrc picks n maxIt maxRe f k' := by
      rw [restartLoop, hit]
    cases o with
    | some res =>
      right
      have hInv : Inv (initBoard n (permSrc (maxRe - (f + 1)))) :=
        initBoard_Inv (hperm _)
      obtain ⟨s', a1, a2, a3, a4, a5, a6, a7, a8⟩ :=
        iterLoop_some picks maxIt (maxRe - (f + 1)) maxIt _ k res k2 hInv
          (le_refl _) hit
      have hn' : (initBoard n (permSrc (maxRe - (f + 1)))).n = n :=
        initFold_n n _ (List.range n) _
      refine ⟨s', a1, by rw [a2, hn'], a3, ?_, ?_, ?_, ?_, ?_, ?_⟩ <;>
        rw [hrl] <;> simp only [] <;> first
          | exact a4
          | exact a5
          | omega
    | none =>
      rw [hrl]
      simp only []
      exact ih k2 (by omega)

lemma restartLoop_23 (permSrc : Nat → List Nat) (picks : Nat → Nat)
    (n maxIt maxRe : Nat) (hperm : ∀ r, isPermutation n (permSrc r))
    (hn : n = 2 ∨ n = 3) :
    ∀ (fuel k : Nat), restartLoop permSrc picks n maxIt maxRe fuel k
      = ⟨none, maxIt * maxRe, maxRe, false⟩ := by
  intro fuel
  induction fuel with
  | zero => intro k; rfl
  | succ f ih =>
    intro k
    rcases hit : iterLoop picks maxIt (maxRe - (f + 1)) maxIt
        (initBoard n (permSrc (maxRe - (f + 1)))) k with ⟨o, k2⟩
    have hInv : Inv (initBoard n (permSrc (maxRe - (f + 1)))) :=
      initBoard_Inv (hperm _)
    have hn' : (initBoard n (permSrc (maxRe - (f + 1)))).n = n :=
      initFold_n n _ (List.range n) _
    have hnone := iterLoop_none_23 picks maxIt (maxRe - (f + 1)) maxIt
      (initBoard n (permSrc (maxRe - (f + 1)))) k hInv (by rw [hn']; exact hn)
    rw [hit] at hnone
    simp only [] at hnone
    subst hnone
    rw [restartLoop, hit]
    exact ih k2

/-- If the first restart's board already has zero conflicts, the solver
returns it with one iteration and one restart. -/
lemma solve_immediate (n maxIt maxRe : Nat) (hIt : 1 ≤ maxIt) (hRe : 1 ≤ maxRe)
    (permSrc : Nat → List Nat) (picks : Nat → Nat)
    (h0 : totalConflicts (initBoard n (permSrc 0)) = 0) :
    solve_min_conflicts n maxIt maxRe permSrc picks
      = ⟨some (initBoard n (permSrc 0)).board, 1, 1, true⟩ := by
  obtain ⟨f, rfl⟩ : ∃ f, maxRe = f + 1 := ⟨maxRe - 1, by omega⟩
  obtain ⟨g, rfl⟩ : ∃ g, maxIt = g + 1 := ⟨maxIt - 1, by omega⟩
  unfold solve_min_conflicts
  have hr0 : f + 1 - (f + 1) = 0 := by omega
  have hg1 : g + 1 - g = 1 := by omega
  rw [restartLoop, hr0, iterLoop, if_pos h0, hg1]

lemma isPermutation_one {l : List Nat} (h : isPermutation 1 l) : l = [0] := by
  obtain ⟨hl, hc⟩ := h
  match l, hl with
  | [x], _ =>
    have h0 := hc 0 (by omega)
    by_cases hx : x = 0
    · rw [hx]
    · exfalso
      have hne : (0 : Nat) ∉ [x] := by
        intro hmem
        exact hx (List.mem_singleton.1 hmem).symm
      have hz : List.count 0 [x] = 0 := List.count_eq_zero.2 hne
      rw [List.count] at h0 hz
      omega

/-! ### The claims -/

/-- Claim C1: whenever `solve_min_conflicts` returns `success = true`,
the final state's counters give `total_conflicts() = 0`, the returned
board is a bijective permutation of `{0,…,n-1}`, and the naive pairwise
diagonal-attack count over the returned board is also 0. -/
theorem claim1_success_correct (n maxIt maxRe : Nat) (permSrc : Nat → List Nat)
    (picks : Nat → Nat) (hperm : ∀ r, isPermutation n (permSrc r))
    (hs : (solve_min_conflicts n maxIt maxRe permSrc picks).success = true) :
    ∃ s' : MCBoard, s'.n = n
      ∧ (solve_min_conflicts n maxIt maxRe permSrc picks).board = some s'.board
      ∧ isPermutation n s'.board
      ∧ totalConflicts s' = 0
      ∧ count_conflicts s'.board n = 0 := by
  unfold solve_min_conflicts at hs ⊢
  rcases restartLoop_cases permSrc picks n maxIt maxRe hperm maxRe 0 (le_refl _)
    with h | h
  · rw [h] at hs
    simp at hs
  · obtain ⟨s', a1, a2, a3, a4, -, -, -, -, -⟩ := h
    refine ⟨s', a2, a4, by rw [← a2]; exact a1.2.1, a3, ?_⟩
    have heq := totalConflicts_eq_count a1
    rw [a3] at heq
    have hc : (count_conflicts s'.board s'.n : Int) = 0 := heq.symm
    rw [a2] at hc
    exact_mod_cast hc

theorem claim1_witness :
    ∃ s' : MCBoard, s'.n = 1
      ∧ (solve_min_conflicts 1 5 5 (fun _ => [0]) (fun _ => 0)).board
          = some s'.board
      ∧ isPermutation 1 s'.board
      ∧ totalConflicts s' = 0
      ∧ count_conflicts s'.board 1 = 0 :=
  claim1_success_correct 1 5 5 (fun _ => [0]) (fun _ => 0)
    (fun r => (by decide : isPermutation 1 [0])) (by decide)

/-- Claim C2: for every n ≥ 1, after construction from a permutation and
after any finite sequence of `swap_queens` calls with valid rows, the
board is a bijective permutation of `{0,…,n-1}` and both stored counters
match a from-scratch recount obtained by scanning the board. -/
theorem claim2_state_consistency (n : Nat) (hn : 1 ≤ n) (perm : List Nat)
    (hp : isPermutation n perm) (swaps : List (Nat × Nat))
    (hsw : ∀ q ∈ swaps, q.1 < n ∧ q.2 < n) :
    Inv (swaps.foldl (fun s q => swapQueens s q.1 q.2) (initBoard n perm)) := by
  have key : ∀ (sw : List (Nat × Nat)) (s : MCBoard),
      (∀ q ∈ sw, q.1 < n ∧ q.2 < n) → Inv s → s.n = n →
      Inv (sw.foldl (fun s q => swapQueens s q.1 q.2) s) := by
    intro sw
    induction sw with
    | nil => exact fun s _ hs _ => hs
    | cons q qs ih =>
      intro s hsw' hs hn'
      rw [List.foldl_cons]
      have h1 := (hsw' q (List.mem_cons_self q qs)).1
      have h2 := (hsw' q (List.mem_cons_self q qs)).2
      exact ih _ (fun p hp' => hsw' p (List.mem_cons_of_mem _ hp'))
        (swapQueens_Inv hs (by omega) (by omega))
        (by rw [swapQueens_n]; omega)
  exact key swaps _ hsw (initBoard_Inv hp) (initFold_n n perm (List.range n) _)

theorem claim2_witness :
    Inv ([((0 : Nat), (1 : Nat)), (2, 3), (1, 1)].foldl
      (fun s q => swapQueens s q.1 q.2) (initBoard 4 [2, 0, 3, 1])) :=
  claim2_state_consistency 4 (by decide) [2, 0, 3, 1] (by decide)
    [(0, 1), (2, 3), (1, 1)] (by decide)

/-- Claim C3: on a consistent state with valid rows, `swap_queens`
applied twice restores the exact prior state (board and both counters),
and `swap_queens r r` is a no-op. -/
theorem claim3_swap_involution (s : MCBoard) (h : Inv s) (r1 r2 : Nat)
    (h1 : r1 < s.n) (h2 : r2 < s.n) :
    swapQueens (swapQueens s r1 r2) r1 r2 = s ∧ swapQueens s r1 r1 = s :=
  ⟨swapQueens_invol s h1 h2 h.1, swapQueens_self s r1⟩

theorem claim3_witness :
    swapQueens (swapQueens (initBoard 4 [1, 3, 0, 2]) 0 2) 0 2
        = initBoard 4 [1, 3, 0, 2]
    ∧ swapQueens (initBoard 4 [1, 3, 0, 2]) 0 0 = initBoard 4 [1, 3, 0, 2] :=
  claim3_swap_involution (initBoard 4 [1, 3, 0, 2]) (by decide) 0 2
    (by decide) (by decide)

/-- Claim C4: on every consistent state (permutation board with matching
counters), the optimized `total_conflicts` — summing `c*(c-1)/2` over
every bucket of both counters — equals the naive O(n²) pairwise count
`count_conflicts` computed directly from the board. -/
theorem claim4_total_conflicts_agree (s : MCBoard) (h : Inv s) :
    totalConflicts s = (count_conflicts s.board s.n : Int) :=
  totalConflicts_eq_count h

theorem claim4_witness :
    totalConflicts (initBoard 4 [0, 1, 2, 3])
      = (count_conflicts (initBoard 4 [0, 1, 2, 3]).board
          (initBoard 4 [0, 1, 2, 3]).n : Int) :=
  claim4_total_conflicts_agree (initBoard 4 [0, 1, 2, 3]) (by decide)

/-- Claim C5: the solver never exceeds its budgets; whenever all
restarts complete without reaching zero conflicts it returns exactly
`(None, max_iterations * max_restarts, max_restarts, False)`, and for
n = 2 and n = 3 (which have no solution) this failure outcome is the
only possible one, for every randomness source. -/
theorem claim5_budget_exhaustion (n maxIt maxRe : Nat)
    (permSrc : Nat → List Nat) (picks : Nat → Nat)
    (hperm : ∀ r, isPermutation n (permSrc r)) :
    ((solve_min_conflicts n maxIt maxRe permSrc picks).success = false →
      solve_min_conflicts n maxIt maxRe permSrc picks
        = ⟨none, maxIt * maxRe, maxRe, false⟩)
    ∧ ((n = 2 ∨ n = 3) →
      solve_min_conflicts n maxIt maxRe permSrc picks
        = ⟨none, maxIt * maxRe, maxRe, false⟩) := by
  constructor
  · intro hf
    unfold solve_min_conflicts at hf ⊢
    rcases restartLoop_cases permSrc picks n maxIt maxRe hperm maxRe 0 (le_refl _)
      with h | h
    · exact h
    · obtain ⟨s', -, -, -, -, a5, -⟩ := h
      rw [hf] at a5
      exact absurd a5 (by simp)
  · intro hn
    unfold solve_min_conflicts
    exact restartLoop_23 permSrc picks n maxIt maxRe hperm hn maxRe 0

theorem claim5_witness :
    (((solve_min_conflicts 2 2 2 (fun _ => [0, 1]) (fun _ => 0)).success = false →
      solve_min_conflicts 2 2 2 (fun _ => [0, 1]) (fun _ => 0)
        = ⟨none, 2 * 2, 2, false⟩)
    ∧ ((2 = 2 ∨ 2 = 3) →
      solve_min_conflicts 2 2 2 (fun _ => [0, 1]) (fun _ => 0)
        = ⟨none, 2 * 2, 2, false⟩)) :=
  claim5_budget_exhaustion 2 2 2 (fun _ => [0, 1]) (fun _ => 0)
    (fun r => (by decide : isPermutation 2 [0, 1]))

/-- Claim C6 counterexample: the code performs no size validation at
all; for n = 0 (`n < 1`) the solver does not fail with any error and
returns a full success record with the empty board. -/
theorem claim6_counterexample :
    solve_min_conflicts 0 10000 100 (fun _ => []) (fun _ => 0)
      = ⟨some [], 1, 1, true⟩ := by decide

/-- Claim C6 amended: neither `solve_min_conflicts` nor the board
constructor checks `n < 1`; for n = 0 the constructor builds an empty
board with empty counter arrays and the solver immediately reports
success with the empty board, one iteration and one restart. -/
theorem claim6_amended (maxIt maxRe : Nat) (hIt : 1 ≤ maxIt) (hRe : 1 ≤ maxRe)
    (permSrc : Nat → List Nat) (picks : Nat → Nat) (hp : permSrc 0 = []) :
    solve_min_conflicts 0 maxIt maxRe permSrc picks
      = ⟨some [], 1, 1, true⟩ := by
  have h := solve_immediate 0 maxIt maxRe hIt hRe permSrc picks
    (by rw [hp]; rfl)
  rw [hp] at h
  rw [h]
  rfl

theorem claim6_witness :
    solve_min_conflicts 0 3 7 (fun _ => []) (fun _ => 1)
      = ⟨some [], 1, 1, true⟩ :=
  claim6_amended 3 7 (by decide) (by decide) (fun _ => []) (fun _ => 1) rfl

/-- Claim C7 counterexample: `get_best_swap`'s loop runs over all of
`range(n)` including `other_row == row`; on this concrete consistent
state the selected row 0 appears in its own `best_swaps` list and is the
value returned, whereas the spec's candidate list excludes it. -/
theorem claim7_counterexample :
    bestSwapList (initBoard 2 [0, 1]) 0 = [0, 1]
    ∧ bestSwapListSpec (initBoard 2 [0, 1]) 0 = [1]
    ∧ get_best_swap (initBoard 2 [0, 1]) 0 (fun _ => 0) 0 = 0 := by decide

/-- Claim C7 amended: `get_best_swap` evaluates every candidate row
`r' < n` — including `r' = row` itself, whose probe is a no-op swap — by
the probe-swap-revert score, and returns a random row whose score is
minimal among all rows (possibly `row` itself). -/
theorem claim7_amended (s : MCBoard) (row : Nat) (picks : Nat → Nat) (k : Nat)
    (hn : 1 ≤ s.n) :
    get_best_swap s row picks k < s.n
    ∧ ∀ r' < s.n, probeScore s row (get_best_swap s row picks k)
        ≤ probeScore s row r' := by
  have hne : List.range s.n ≠ [] := by
    rw [ne_eq, List.range_eq_nil]
    omega
  obtain ⟨m, best, heq, hbne, hmem, hmin⟩ :=
    minFold_spec (probeScore s row) (List.range s.n) hne
  have hchoose : get_best_swap s row picks k ∈ best := by
    unfold get_best_swap bestSwapList
    rw [heq]
    exact chooseFrom_mem picks k best hbne
  obtain ⟨hin, hsc⟩ := hmem _ hchoose
  refine ⟨List.mem_range.1 hin, fun r' hr' => ?_⟩
  rw [hsc]
  exact hmin _ (List.mem_range.2 hr')

theorem claim7_witness :
    get_best_swap (initBoard 3 [2, 0, 1]) 1 (fun _ => 0) 0 < 3
    ∧ ∀ r' < 3, probeScore (initBoard 3 [2, 0, 1]) 1
        (get_best_swap (initBoard 3 [2, 0, 1]) 1 (fun _ => 0) 0)
        ≤ probeScore (initBoard 3 [2, 0, 1]) 1 r' :=
  claim7_amended (initBoard 3 [2, 0, 1]) 1 (fun _ => 0) 0 (by decide)

/-- Claim C8 counterexample: with `max_iterations = 1`,
`max_restarts = 2`, the first restart exhausts its full one-iteration
budget and the second restart succeeds at its first iteration; in total
2 iterations were executed over the whole call, but the reported
iteration count is the per-restart value 1 (with restarts = 2). -/
theorem claim8_counterexample :
    solve_min_conflicts 4 1 2
        (fun r => if r = 0 then [0, 1, 2, 3] else [1, 3, 0, 2]) (fun _ => 0)
      = ⟨some [1, 3, 0, 2], 1, 2, true⟩ := by decide

/-- Claim C8 amended: on success the reported iteration count is the
1-based index of the successful iteration within the final restart —
hence between 1 and `max_iterations`, never cumulative across restarts —
and the reported restart count is the current restart number; for n = 1
the call succeeds immediately with board `[0]`, 1 iteration, 1
restart. -/
theorem claim8_amended (n maxIt maxRe : Nat) (permSrc : Nat → List Nat)
    (picks : Nat → Nat) (hperm : ∀ r, isPermutation n (permSrc r)) :
    ((solve_min_conflicts n maxIt maxRe permSrc picks).success = true →
      1 ≤ (solve_min_conflicts n maxIt maxRe permSrc picks).iterations
      ∧ (solve_min_conflicts n maxIt maxRe permSrc picks).iterations ≤ maxIt
      ∧ 1 ≤ (solve_min_conflicts n maxIt maxRe permSrc picks).restarts
      ∧ (solve_min_conflicts n maxIt maxRe permSrc picks).restarts ≤ maxRe)
    ∧ (n = 1 → 1 ≤ maxIt → 1 ≤ maxRe →
      solve_min_conflicts n maxIt maxRe permSrc picks
        = ⟨some [0], 1, 1, true⟩) := by
  constructor
  · intro hs
    unfold solve_min_conflicts at hs ⊢
    rcases restartLoop_cases permSrc picks n maxIt maxRe hperm maxRe 0
      (le_refl _) with h | h
    · rw [h] at hs
      simp at hs
    · obtain ⟨s', -, -, -, -, -, a6, a7, a8, a9⟩ := h
      exact ⟨a6, a7, a8, a9⟩
  · intro hn hIt hRe
    subst hn
    have hp0 : permSrc 0 = [0] := isPermutation_one (hperm 0)
    have h := solve_immediate 1 maxIt maxRe hIt hRe permSrc picks
      (by rw [hp0]; rfl)
    rw [hp0] at h
    rw [h]
    rfl

theorem claim8_witness :
    (((solve_min_conflicts 1 2 3 (fun _ => [0]) (fun _ => 0)).success = true →
      1 ≤ (solve_min_conflicts 1 2 3 (fun _ => [0]) (fun _ => 0)).iterations
      ∧ (solve_min_conflicts 1 2 3 (fun _ => [0]) (fun _ => 0)).iterations ≤ 2
      ∧ 1 ≤ (solve_min_conflicts 1 2 3 (fun _ => [0]) (fun _ => 0)).restarts
      ∧ (solve_min_conflicts 1 2 3 (fun _ => [0]) (fun _ => 0)).restarts ≤ 3)
    ∧ (1 = 1 → 1 ≤ 2 → 1 ≤ 3 →
      solve_min_conflicts 1 2 3 (fun _ => [0]) (fun _ => 0)
        = ⟨some [0], 1, 1, true⟩)) :=
  claim8_amended 1 2 3 (fun _ => [0]) (fun _ => 0)
    (fun r => (by decide : isPermutation 1 [0]))

/-- Claim C9: for every state and every row and column (the claim's
consistent in-range case included), `conflicts_at` equals the spec
formula `(diag[row-col+n-1] - 1) + (antidiag[row+col] - 1)` clamped at
0, and is therefore non-negative. -/
theorem claim9_conflicts_at_formula (s : MCBoard) (row col : Nat) :
    conflictsAt s row col = conflictsAtSpec s row col
    ∧ 0 ≤ conflictsAt s row col := by
  unfold conflictsAt conflictsAtSpec
  constructor
  · omega
  · exact le_max_left 0 _

/-- Claim C10: under the state invariant, positive total conflicts force
some row with positive per-queen conflicts, so the `most_conflicted_queens
== []` branch is unreachable; and whenever that branch is taken anyway,
the iteration is a pure no-op that still consumes exactly one unit of
the per-restart iteration budget (no crash, no reset). -/
theorem claim10_defensive_branch (s : MCBoard) (h : Inv s)
    (hpos : 0 < totalConflicts s) :
    (∃ r < s.n, 0 < conflictsAt s r (s.board.getD r 0))
    ∧ mostConflicted s ≠ []
    ∧ ∀ (s' : MCBoard) (picks : Nat → Nat) (maxIt restart fuel k : Nat),
        totalConflicts s' ≠ 0 → mostConflicted s' = [] →
        iterLoop picks maxIt restart (fuel + 1) s' k
          = iterLoop picks maxIt restart fuel s' k := by
  refine ⟨exists_conflicted h hpos,
    mostConflicted_ne_nil s (exists_conflicted h hpos), ?_⟩
  intro s' picks maxIt restart fuel k h0 hm
  simp only [iterLoop]
  rw [if_neg h0, if_pos hm]

theorem claim10_witness :
    (∃ r < (initBoard 2 [0, 1]).n,
      0 < conflictsAt (initBoard 2 [0, 1]) r
        ((initBoard 2 [0, 1]).board.getD r 0))
    ∧ mostConflicted (initBoard 2 [0, 1]) ≠ []
    ∧ ∀ (s' : MCBoard) (picks : Nat → Nat) (maxIt restart fuel k : Nat),
        totalConflicts s' ≠ 0 → mostConflicted s' = [] →
        iterLoop picks maxIt restart (fuel + 1) s' k
          = iterLoop picks maxIt restart fuel s' k :=
  claim10_defensive_branch (initBoard 2 [0, 1]) (by decide) (by decide)

end NQueens
